import Mathlib

/-!
Verification development for the Hill-cipher image encryption engine
(`hill_cipher.py`).  The Python class `HillCipher` is shallowly embedded:

* machine integers are modelled as `Nat`/`Int` (Python integers are
  unbounded, pixel values live in `[0, 255]`);
* `numpy` arrays are modelled as lists (one list per matrix row, one flat
  list per flattened channel), and square matrices additionally as
  `Matrix (Fin n) (Fin n) ℤ`;
* the floating-point determinant `int(np.round(np.linalg.det(M)))` used by
  the source is idealised as the exact integer determinant `Matrix.det`,
  which is the value the rounding is intended to produce;
* Python `%` with a positive modulus agrees with `Int.emod` / `Nat.mod`;
* exceptions become `Option`/`Except` results, and the mutable fields of a
  `HillCipher` instance become an explicit `CipherState` record that is
  threaded through the operations in the order the source mutates them.
-/

namespace HillCipher

/-- Euclidean loop of `HillCipher.gcd`: `while b: a, b = b, a % b; return a`. -/
def gcd (a b : Nat) : Nat :=
  if _h : b = 0 then a else gcd b (a % b)
termination_by b
decreasing_by exact Nat.mod_lt _ (Nat.pos_of_ne_zero _h)

/-- Inner `extended_gcd` of `HillCipher.mod_inverse`:
`if a == 0: return (b, 0, 1)` else recurse on `(b % a, a)` and return
`(g, y1 - (b // a) * x1, x1)`.  Both arguments are natural numbers at every
call site (`a % m` and `m`). -/
def extended_gcd (a b : Nat) : Nat × Int × Int :=
  if _h : a = 0 then (b, 0, 1)
  else
    let r := extended_gcd (b % a) a
    (r.1, r.2.2 - (b / a : Nat) * r.2.1, r.2.1)
termination_by a
decreasing_by exact Nat.mod_lt _ (Nat.pos_of_ne_zero _h)

/-- Model of `HillCipher.mod_inverse(a, m)`: raises (`none`) when
`gcd(a, m) != 1`, otherwise returns `(x % m + m) % m` for the Bezout
coefficient `x` of `extended_gcd(a % m, m)`. -/
def mod_inverse (a m : Nat) : Option Int :=
  if gcd a m ≠ 1 then none
  else
    let x := (extended_gcd (a % m) m).2.1
    some ((x % (m : Int) + m) % m)

/-- Adjugate computation of `HillCipher.matrix_inverse_mod`.  The source
branches on the dimension: a 2x2 matrix uses the closed form
`[[d, -b], [-c, a]]`; every other dimension fills entry `[j, i]` with the
cofactor `((-1) ** (i + j)) * det(minor(i, j)) % mod`, where `minor(i, j)`
deletes row `i` and column `j` (for a 1x1 matrix the minor is empty and its
determinant is 1, matching `np.linalg.det` on a 0x0 array). -/
def adjCode : {n : Nat} → Matrix (Fin n) (Fin n) Int → Nat → Matrix (Fin n) (Fin n) Int
  | 0, _, _ => Matrix.of fun i _ => i.elim0
  | 2, M, _ => Matrix.of ![![M 1 1, -(M 0 1)], ![-(M 1 0), M 0 0]]
  | _ + 1, M, m => Matrix.of fun p q =>
      ((-1 : Int) ^ ((q : Nat) + (p : Nat)) *
        (M.submatrix q.succAbove p.succAbove).det) % (m : Int)

/-- Model of `HillCipher.matrix_inverse_mod(matrix, mod)`:
`det = int(np.round(np.linalg.det(matrix))) % mod` (idealised as the exact
integer determinant reduced with Python `%`), then
`det_inv = mod_inverse(det, mod)` (propagating its failure as `none`), and
the result is `(det_inv * adjugate) % mod`. -/
def matrix_inverse_mod {n : Nat} (M : Matrix (Fin n) (Fin n) Int) (m : Nat) :
    Option (Matrix (Fin n) (Fin n) Int) :=
  let det : Nat := (M.det % (m : Int)).toNat
  match mod_inverse det m with
  | none => none
  | some det_inv => some (Matrix.of fun i j => (det_inv * adjCode M m i j) % (m : Int))

/-- A list-of-rows array is a square matrix when every row has as many
entries as there are rows (a non-square array makes `np.linalg.det` raise
`LinAlgError` inside `matrix_inverse_mod`). -/
def isSquareL (rows : List (List Int)) : Bool :=
  rows.all fun r => r.length == rows.length

/-- View of a square list-of-rows array as a Mathlib matrix. -/
def toMat (rows : List (List Int)) :
    Matrix (Fin rows.length) (Fin rows.length) Int :=
  Matrix.of fun i j => (rows.getD i []).getD j 0

/-- View of a Mathlib matrix as a list-of-rows array (`ndarray.tolist`). -/
def ofMat {n : Nat} (M : Matrix (Fin n) (Fin n) Int) : List (List Int) :=
  List.ofFn fun i => List.ofFn fun j => M i j

/-- The two distinguishable failures of `set_key_matrix`: `numpy` raises
`LinAlgError` on a non-square array, and `mod_inverse` raises `ValueError`
when the determinant is not a unit modulo 256.  Both are caught and turned
into a `False` return value, with different printed messages. -/
inductive KeyErr where
  | nonSquare
  | singular
deriving DecidableEq

/-- `matrix_inverse_mod` applied to a raw list-of-rows array, with the two
exception paths made explicit. -/
def matrix_inverse_mod_rows (rows : List (List Int)) :
    Except KeyErr (List (List Int)) :=
  if isSquareL rows then
    match matrix_inverse_mod (toMat rows) 256 with
    | none => Except.error KeyErr.singular
    | some A => Except.ok (ofMat A)
  else Except.error KeyErr.nonSquare

/-- Dot product of a matrix row with a block (`np.dot` row action). -/
def dotRow (row block : List Int) : Int :=
  (List.zipWith (· * ·) row block).sum

/-- Model of `HillCipher.encrypt_block`: `np.dot(key_matrix, block) % 256`. -/
def encrypt_block (key : List (List Int)) (block : List Int) : List Int :=
  key.map fun row => dotRow row block % 256

/-- Model of `HillCipher.decrypt_block`:
`np.dot(inverse_key_matrix, block) % 256`. -/
def decrypt_block (ikey : List (List Int)) (block : List Int) : List Int :=
  ikey.map fun row => dotRow row block % 256

/-- Model of `HillCipher.pad_data`: when `len(data) % block_size != 0`,
append `block_size - remainder` zero elements. -/
def pad_data (block_size : Nat) (data : List Int) : List Int :=
  let remainder := data.length % block_size
  if remainder ≠ 0 then data ++ List.replicate (block_size - remainder) 0
  else data

/-- The block loop
`for i in range(0, len(data), block_size): out.extend(f(data[i:i+block_size]))`
(the range has `ceil(len(data) / block_size)` indices `i = k * block_size`). -/
def blocks_loop (f : List Int → List Int) (block_size : Nat) (data : List Int) :
    List Int :=
  ((List.range ((data.length + block_size - 1) / block_size)).map fun k =>
    f ((data.drop (k * block_size)).take block_size)).flatten

/-- Mutable fields of a `HillCipher` instance (`__init__` defaults:
`block_size = 2`, no key, no inverse). -/
structure CipherState where
  block_size : Nat
  key_matrix : Option (List (List Int))
  inverse_key_matrix : Option (List (List Int))
deriving DecidableEq

/-- Model of `HillCipher.set_key_matrix`: the source first assigns
`self.key_matrix = key_matrix.astype(int)` and only then computes
`self.inverse_key_matrix = self.matrix_inverse_mod(key_matrix, 256)`;
when the inverse computation raises, the exception is caught and `False`
is returned, with `key_matrix` already overwritten and the previous
inverse left in place. -/
def set_key_matrix (st : CipherState) (rows : List (List Int)) :
    Except KeyErr Unit × CipherState :=
  let st1 : CipherState := { st with key_matrix := some rows }
  match matrix_inverse_mod_rows rows with
  | Except.error e => (Except.error e, st1)
  | Except.ok inv => (Except.ok (), { st1 with inverse_key_matrix := some inv })

/-- Contents of a key file: `{'key_matrix': ..., 'block_size': ...}`; the
`block_size` field may be absent from a record read back by `load_key`. -/
structure KeyFile where
  key_matrix : List (List Int)
  block_size : Option Nat
deriving DecidableEq

/-- Model of `HillCipher.save_key`: returns `False` (`none`) when no key is
set, otherwise writes the key rows and the current block size. -/
def save_key (st : CipherState) : Option KeyFile :=
  match st.key_matrix with
  | none => none
  | some k => some { key_matrix := k, block_size := some st.block_size }

/-- Model of `HillCipher.load_key`: sets
`self.block_size = key_data.get('block_size', 2)` and then returns
`self.set_key_matrix(np.array(key_data['key_matrix']))`. -/
def load_key (st : CipherState) (kf : KeyFile) : Bool × CipherState :=
  let st1 : CipherState := { st with block_size := kf.block_size.getD 2 }
  match set_key_matrix st1 kf.key_matrix with
  | (Except.ok _, st2) => (true, st2)
  | (Except.error _, st2) => (false, st2)

/-- Metadata sidecar written by `encrypt_image` and read by
`decrypt_image`. -/
structure Meta where
  original_shape : List Nat
  image_mode : String
  block_size : Nat
  key_matrix : List (List Int)
deriving DecidableEq

/-- A decoded pixel array.  `color` models a 3-dimensional array of shape
`(h, w, c)` by its `c` channel planes (each plane the row-major
flattening `image_array[:, :, channel]`, of length `h * w`); `gray` models
every array whose shape is not 3-dimensional, by its shape tuple and its
row-major flattening. -/
inductive Img where
  | gray (shape : List Nat) (mode : String) (data : List Int)
  | color (h w : Nat) (mode : String) (channels : List (List Int))
deriving DecidableEq

/-- Shape tuple of a pixel array (`ndarray.shape`). -/
def Img.shape : Img → List Nat
  | .gray s _ _ => s
  | .color h w _ ch => [h, w, ch.length]

/-- Pixel mode of an image (`PIL.Image.mode`). -/
def Img.mode : Img → String
  | .gray _ m _ => m
  | .color _ _ m _ => m

/-- Model of `HillCipher.encrypt_image` on the decoded pixel array.  Each
channel (or the whole flattened array for a non-3-dimensional shape) is
padded, encrypted block by block, truncated back to the plane size with
`[:np.prod(...)]` and reshaped to the original shape; the metadata records
the original shape, the pixel mode, the block size and the key.  A raised
exception is modelled as `Except.error` with the message produced by the
`except` clause.  (If no key is set, `encrypt_block` raises on the first
block; the model raises this error up front.) -/
def encrypt_image (st : CipherState) (img : Img) :
    Except String (Img × Meta) :=
  match st.key_matrix with
  | none => Except.error "Encryption failed: Key matrix not set"
  | some K =>
    match img with
    | Img.color h w mode channels =>
        let encCh := channels.map fun ch =>
          blocks_loop (encrypt_block K) st.block_size (pad_data st.block_size ch)
        if encCh.all fun c => h * w ≤ c.length then
          Except.ok (Img.color h w mode (encCh.map fun c => c.take (h * w)),
            { original_shape := [h, w, channels.length], image_mode := mode,
              block_size := st.block_size, key_matrix := K })
        else Except.error "Encryption failed: cannot reshape"
    | Img.gray shape mode data =>
        let enc := blocks_loop (encrypt_block K) st.block_size
          (pad_data st.block_size data)
        if shape.prod ≤ enc.length then
          Except.ok (Img.gray shape mode (enc.take shape.prod),
            { original_shape := shape, image_mode := mode,
              block_size := st.block_size, key_matrix := K })
        else Except.error "Encryption failed: cannot reshape"

/-- Model of `HillCipher.decrypt_image` on the decoded ciphertext array.
The reconstruction shape and mode come from the metadata when a metadata
record is available, and otherwise from the ciphertext image itself
(`np.array(image).shape` and `image.mode`).  The pipeline then mirrors
encryption with `decrypt_block`, truncating to `np.prod` of the recorded
shape and reshaping to it.  Indexing a channel that the ciphertext does
not have, or reshaping with too few elements, raises; a raised exception
is modelled as `Except.error`. -/
def decrypt_image (st : CipherState) (img : Img) (md : Option Meta) :
    Except String Img :=
  let oshape := match md with
    | some m2 => m2.original_shape
    | none => img.shape
  let omode := match md with
    | some m2 => m2.image_mode
    | none => img.mode
  match st.inverse_key_matrix with
  | none => Except.error "Decryption failed: Inverse key matrix not calculated"
  | some Kinv =>
    if oshape.length = 3 then
      match img with
      | Img.color _ _ _ channels =>
          let c := oshape.getD 2 0
          if c ≤ channels.length then
            let decCh := (channels.take c).map fun ch =>
              blocks_loop (decrypt_block Kinv) st.block_size
                (pad_data st.block_size ch)
            let hw := oshape.getD 0 0 * oshape.getD 1 0
            if decCh.all fun l => hw ≤ l.length then
              Except.ok (Img.color (oshape.getD 0 0) (oshape.getD 1 0) omode
                (decCh.map fun l => l.take hw))
            else Except.error "Decryption failed: cannot reshape"
          else Except.error "Decryption failed: channel index out of range"
      | Img.gray _ _ _ =>
          Except.error "Decryption failed: channel index out of range"
    else
      let data := match img with
        | Img.gray _ _ d => d
        | Img.color _ _ _ channels => channels.transpose.flatten
      let dec := blocks_loop (decrypt_block Kinv) st.block_size
        (pad_data st.block_size data)
      if oshape.prod ≤ dec.length then
        Except.ok (Img.gray oshape omode (dec.take oshape.prod))
      else Except.error "Decryption failed: cannot reshape"

theorem gcd_eq_gcd (b : Nat) : ∀ a, gcd a b = Nat.gcd a b := by
  induction b using Nat.strong_induction_on with
  | _ b ih =>
    intro a
    rw [gcd]
    by_cases hb : b = 0
    · simp [hb]
    · simp only [hb, dite_false]
      rw [ih (a % b) (Nat.mod_lt _ (Nat.pos_of_ne_zero hb))]
      rw [Nat.gcd_comm b (a % b), ← Nat.gcd_rec b a, Nat.gcd_comm]

theorem extended_gcd_spec (a : Nat) : ∀ b : Nat,
    (extended_gcd a b).1 = Nat.gcd a b ∧
    (a : Int) * (extended_gcd a b).2.1 + (b : Int) * (extended_gcd a b).2.2 =
      ((extended_gcd a b).1 : Int) := by
  induction a using Nat.strong_induction_on with
  | _ a ih =>
    intro b
    rw [extended_gcd]
    by_cases ha : a = 0
    · simp [ha]
    · simp only [ha, dite_false]
      obtain ⟨ih1, ih2⟩ := ih (b % a) (Nat.mod_lt _ (Nat.pos_of_ne_zero ha)) a
      constructor
      · rw [ih1, ← Nat.gcd_rec a b]
      · have hmd : ((b % a : Nat) : Int) + (a : Int) * ((b / a : Nat) : Int) = (b : Int) := by
          exact_mod_cast congrArg (Nat.cast : Nat → Int) (Nat.mod_add_div b a)
        rw [ih1, ← Nat.gcd_rec a b] at ih2 ⊢
        linear_combination ih2 - (extended_gcd (b % a) a).2.1 * hmd

theorem mod_inverse_spec (a m : Nat) (hm : 0 < m) (h : Nat.gcd a m = 1) :
    ∃ x : Int, mod_inverse a m = some x ∧ 0 ≤ x ∧ x < m ∧
      ((a : Int) * x) % m = 1 % m := by
  have hg : gcd a m = 1 := by rw [gcd_eq_gcd]; exact h
  obtain ⟨he1, he2⟩ := extended_gcd_spec (a % m) m
  have hgam : Nat.gcd (a % m) m = 1 := by
    rw [← Nat.gcd_rec m a, Nat.gcd_comm]; exact h
  rw [hgam] at he1
  rw [he1] at he2
  have hmz : (m : Int) ≠ 0 := by exact_mod_cast hm.ne'
  refine ⟨((extended_gcd (a % m) m).2.1 % (m : Int) + m) % m, ?_, ?_, ?_, ?_⟩
  · simp [mod_inverse, hg]
  · exact Int.emod_nonneg _ hmz
  · exact Int.emod_lt_of_pos _ (by exact_mod_cast hm)
  · show Int.ModEq m _ 1
    have hcast : ((a % m : Nat) : Int) = (a : Int) % m := Int.natCast_mod a m
    have hb : ((a : Int) % m) * (extended_gcd (a % m) m).2.1 +
        (m : Int) * (extended_gcd (a % m) m).2.2 = 1 := by
      rw [← hcast]; exact_mod_cast he2
    have h1 : Int.ModEq m (((extended_gcd (a % m) m).2.1 % (m : Int) + m) % m)
        (extended_gcd (a % m) m).2.1 := by
      calc ((extended_gcd (a % m) m).2.1 % (m : Int) + m) % m
          ≡ (extended_gcd (a % m) m).2.1 % (m : Int) + m [ZMOD (m : Int)] :=
            Int.emod_emod_of_dvd _ dvd_rfl
        _ ≡ (extended_gcd (a % m) m).2.1 % (m : Int) + 0 [ZMOD (m : Int)] :=
            (Int.ModEq.refl _).add (Int.modEq_iff_dvd.mpr ⟨-1, by ring⟩)
        _ = (extended_gcd (a % m) m).2.1 % (m : Int) := by ring
        _ ≡ (extended_gcd (a % m) m).2.1 [ZMOD (m : Int)] :=
            Int.emod_emod_of_dvd _ dvd_rfl
    have h2 : Int.ModEq m ((a : Int) * (extended_gcd (a % m) m).2.1) 1 := by
      calc (a : Int) * (extended_gcd (a % m) m).2.1
          ≡ ((a : Int) % m) * (extended_gcd (a % m) m).2.1 [ZMOD (m : Int)] :=
            Int.ModEq.mul_right _ (Int.emod_emod_of_dvd a dvd_rfl).symm
        _ = 1 - (m : Int) * (extended_gcd (a % m) m).2.2 := by linarith
        _ ≡ 1 [ZMOD (m : Int)] :=
            Int.modEq_iff_dvd.mpr ⟨(extended_gcd (a % m) m).2.2, by ring⟩
    exact ((Int.ModEq.mul_left _ h1).trans h2)

theorem mod_inverse_eq_none_iff (a m : Nat) :
    mod_inverse a m = none ↔ Nat.gcd a m ≠ 1 := by
  rw [mod_inverse, ← gcd_eq_gcd]
  by_cases h : gcd a m = 1 <;> simp [h]

theorem mod_inverse_11_256 : mod_inverse 11 256 = some 163 := by
  simp [mod_inverse, gcd, extended_gcd]

theorem mod_inverse_0_256 : mod_inverse 0 256 = none := by
  simp [mod_inverse, gcd]

theorem mod_inverse_1_256 : mod_inverse 1 256 = some 1 := by
  simp [mod_inverse, gcd, extended_gcd]

theorem matrix_inverse_mod_rows_key2 :
    matrix_inverse_mod_rows [[3, 2], [5, 7]] =
      Except.ok [[117, 186], [209, 233]] := by
  have hdet : (toMat [[3, 2], [5, 7]]).det = 11 := by decide
  simp only [matrix_inverse_mod_rows, matrix_inverse_mod, Nat.cast_ofNat,
    show isSquareL [[3, 2], [5, 7]] = true from by decide, if_true]
  rw [hdet, show ((11 : Int) % (256 : Int)).toNat = 11 from by decide,
    mod_inverse_11_256]
  exact congrArg Except.ok (by decide)

theorem matrix_inverse_mod_rows_sing2 :
    matrix_inverse_mod_rows [[2, 4], [1, 2]] = Except.error KeyErr.singular := by
  have hdet : (toMat [[2, 4], [1, 2]]).det = 0 := by decide
  simp only [matrix_inverse_mod_rows, matrix_inverse_mod, Nat.cast_ofNat,
    show isSquareL [[2, 4], [1, 2]] = true from by decide, if_true]
  rw [hdet, show ((0 : Int) % (256 : Int)).toNat = 0 from by decide,
    mod_inverse_0_256]

theorem matrix_inverse_mod_rows_id3 :
    matrix_inverse_mod_rows [[1, 0, 0], [0, 1, 0], [0, 0, 1]] =
      Except.ok [[1, 0, 0], [0, 1, 0], [0, 0, 1]] := by
  have hdet : (toMat [[1, 0, 0], [0, 1, 0], [0, 0, 1]]).det = 1 := by decide
  simp only [matrix_inverse_mod_rows, matrix_inverse_mod, Nat.cast_ofNat,
    show isSquareL [[1, 0, 0], [0, 1, 0], [0, 0, 1]] = true from by decide, if_true]
  rw [hdet, show ((1 : Int) % (256 : Int)).toNat = 1 from by decide,
    mod_inverse_1_256]
  exact congrArg Except.ok (by decide)

theorem set_key_matrix_key2 :
    set_key_matrix ⟨2, none, none⟩ [[3, 2], [5, 7]] =
      (Except.ok (), ⟨2, some [[3, 2], [5, 7]], some [[117, 186], [209, 233]]⟩) := by
  simp only [set_key_matrix, matrix_inverse_mod_rows_key2]

theorem intCast_mod_256 (a : Int) : ((a % 256 : Int) : ZMod 256) = (a : ZMod 256) := by
  have h := ZMod.intCast_mod a 256
  push_cast at h
  exact_mod_cast h

theorem adjCode_cast : ∀ {n : Nat} (M : Matrix (Fin n) (Fin n) Int) (p q : Fin n),
    ((adjCode M 256 p q : Int) : ZMod 256) = ((M.adjugate p q : Int) : ZMod 256) := by
  intro n
  match n with
  | 0 => intro _ p _; exact p.elim0
  | 1 =>
    intro M p q
    show ((((-1 : Int) ^ ((q : Nat) + (p : Nat)) *
      (M.submatrix q.succAbove p.succAbove).det) % ((256 : Nat) : Int) : Int) : ZMod 256) = _
    rw [ZMod.intCast_mod, Matrix.adjugate_fin_succ_eq_det_submatrix]
  | 2 =>
    intro M p q
    have h2 : adjCode M 256 = M.adjugate := by
      rw [Matrix.adjugate_fin_two]
      rfl
    rw [h2]
  | (k + 3) =>
    intro M p q
    show ((((-1 : Int) ^ ((q : Nat) + (p : Nat)) *
      (M.submatrix q.succAbove p.succAbove).det) % ((256 : Nat) : Int) : Int) : ZMod 256) = _
    rw [ZMod.intCast_mod, Matrix.adjugate_fin_succ_eq_det_submatrix]

theorem matrix_inverse_mod_spec {n : Nat} (M : Matrix (Fin n) (Fin n) Int)
    (h : Nat.gcd ((M.det % 256).toNat) 256 = 1) :
    ∃ A, matrix_inverse_mod M 256 = some A ∧
      (∀ i j, 0 ≤ A i j ∧ A i j < 256) ∧
      (∀ i j, (((A * M) i j : Int) : ZMod 256) =
        if i = j then (1 : ZMod 256) else 0) := by
  obtain ⟨x, hx, hx0, hxlt, hmul⟩ :=
    mod_inverse_spec ((M.det % 256).toNat) 256 (by norm_num) h
  refine ⟨Matrix.of fun i j => (x * adjCode M 256 i j) % (256 : Int),
    ?_, ?_, ?_⟩
  · simp only [matrix_inverse_mod, Nat.cast_ofNat]
    rw [hx]
  · intro i j
    constructor
    · exact Int.emod_nonneg _ (by norm_num)
    · exact Int.emod_lt_of_pos _ (by norm_num)
  · have hdet1 : ((M.det : ZMod 256) * (x : ZMod 256)) = 1 := by
      have h1 : ((((M.det % 256).toNat : Int) * x : Int) : ZMod 256) =
          ((1 : Int) : ZMod 256) := by
        rw [ZMod.intCast_eq_intCast_iff']
        exact_mod_cast hmul
      rw [Int.toNat_of_nonneg (Int.emod_nonneg _ (by norm_num)),
        Int.cast_mul, intCast_mod_256] at h1
      simpa using h1
    have hcast256 : ∀ p q : Fin n,
        ((adjCode M 256 p q : Int) : ZMod 256) =
          ((M.adjugate p q : Int) : ZMod 256) := fun p q => adjCode_cast M p q
    set f : Int →+* ZMod 256 := Int.castRingHom (ZMod 256) with hf
    have hmap : f.mapMatrix (Matrix.of fun i j =>
        (x * adjCode M 256 i j) % (256 : Int)) =
        (f x) • Matrix.adjugate (f.mapMatrix M) := by
      ext i j
      simp only [RingHom.mapMatrix_apply, Matrix.map_apply, Matrix.of_apply,
        Matrix.smul_apply, smul_eq_mul, hf, Int.coe_castRingHom]
      rw [intCast_mod_256, Int.cast_mul, hcast256]
      have h2 := congrFun (congrFun (RingHom.map_adjugate
        (Int.castRingHom (ZMod 256)) M) i) j
      simp only [RingHom.mapMatrix_apply, Matrix.map_apply,
        Int.coe_castRingHom] at h2
      rw [h2]
    intro i j
    have hAM : f.mapMatrix (Matrix.of (fun i j =>
        (x * adjCode M 256 i j) % (256 : Int)) * M) = 1 := by
      rw [map_mul, hmap, Matrix.smul_mul, Matrix.adjugate_mul, smul_smul]
      have hdet : (f.mapMatrix M).det = f M.det := (RingHom.map_det f M).symm
      rw [hdet]
      have hone : f x * f M.det = 1 := by
        simp only [hf, Int.coe_castRingHom]
        rw [mul_comm]
        exact hdet1
      rw [hone, one_smul]
    have h3 := congrFun (congrFun hAM i) j
    simp only [RingHom.mapMatrix_apply, Matrix.map_apply, hf,
      Int.coe_castRingHom] at h3
    rw [h3, Matrix.one_apply]

theorem matrix_inverse_mod_eq_none_iff {n : Nat} (M : Matrix (Fin n) (Fin n) Int) :
    matrix_inverse_mod M 256 = none ↔
      Nat.gcd ((M.det % 256).toNat) 256 ≠ 1 := by
  rw [← mod_inverse_eq_none_iff ((M.det % 256).toNat) 256]
  simp only [matrix_inverse_mod, Nat.cast_ofNat]
  cases hmi : mod_inverse ((M.det % (256 : Int)).toNat) 256 <;> simp [hmi]

theorem dotRow_eq_sum : ∀ (n : Nat) (r l : List Int), r.length = n → l.length = n →
    dotRow r l = ∑ j : Fin n, r.getD j 0 * l.getD j 0 := by
  intro n
  induction n with
  | zero =>
    intro r l hr hl
    rw [List.length_eq_zero] at hr hl
    subst hr; subst hl
    simp [dotRow]
  | succ n ih =>
    intro r l hr hl
    match r, l with
    | a :: r2, x :: l2 =>
      have hr2 : r2.length = n := by simpa using hr
      have hl2 : l2.length = n := by simpa using hl
      have hstep : dotRow (a :: r2) (x :: l2) = a * x + dotRow r2 l2 := by
        simp [dotRow]
      rw [hstep, ih r2 l2 hr2 hl2, Fin.sum_univ_succ]
      simp [Fin.val_succ]

theorem isSquareL_rows {rows : List (List Int)} (h : isSquareL rows = true) :
    ∀ r ∈ rows, r.length = rows.length := by
  intro r hr
  simp only [isSquareL, List.all_eq_true] at h
  simpa using h r hr

theorem ofMat_length {n : Nat} (M : Matrix (Fin n) (Fin n) Int) :
    (ofMat M).length = n := by
  simp [ofMat]

theorem ofMat_getD {n : Nat} (M : Matrix (Fin n) (Fin n) Int) (i j : Fin n) :
    ((ofMat M).getD i []).getD j 0 = M i j := by
  have hi : (i : Nat) < (ofMat M).length := by rw [ofMat_length]; exact i.2
  rw [List.getD_eq_getElem (ofMat M) ([] : List Int) hi]
  simp only [ofMat, List.getElem_ofFn]
  have hj : (j : Nat) < (List.ofFn fun k => M ⟨(i : Nat), by simpa using hi⟩ k).length := by
    simpa using j.2
  rw [List.getD_eq_getElem _ (0 : Int) hj]
  simp [List.getElem_ofFn]

theorem ofMat_row_length {n : Nat} (M : Matrix (Fin n) (Fin n) Int) (i : Fin n) :
    ((ofMat M).getD i []).length = n := by
  have hi : (i : Nat) < (ofMat M).length := by rw [ofMat_length]; exact i.2
  rw [List.getD_eq_getElem (ofMat M) ([] : List Int) hi]
  simp [ofMat, List.getElem_ofFn]

theorem block_roundtrip_entry {n : Nat} (A K : Matrix (Fin n) (Fin n) Int)
    (hz : ∀ i j, (((A * K) i j : Int) : ZMod 256) =
      if i = j then (1 : ZMod 256) else 0)
    (bv : Fin n → Int) (hbv : ∀ k, 0 ≤ bv k ∧ bv k ≤ 255) (i : Fin n) :
    (∑ j, A i j * ((∑ k, K j k * bv k) % 256)) % 256 = bv i := by
  have hcast : (((∑ j, A i j * ((∑ k, K j k * bv k) % 256)) % 256 : Int) : ZMod 256)
      = ((bv i : Int) : ZMod 256) := by
    rw [intCast_mod_256]
    push_cast
    simp only [intCast_mod_256]
    push_cast
    calc ∑ j, (A i j : ZMod 256) * ∑ k, (K j k : ZMod 256) * (bv k : ZMod 256)
        = ∑ j, ∑ k, (A i j : ZMod 256) * ((K j k : ZMod 256) * (bv k : ZMod 256)) := by
          simp only [Finset.mul_sum]
      _ = ∑ k, ∑ j, (A i j : ZMod 256) * ((K j k : ZMod 256) * (bv k : ZMod 256)) :=
          Finset.sum_comm
      _ = ∑ k, (∑ j, (A i j : ZMod 256) * (K j k : ZMod 256)) * (bv k : ZMod 256) := by
          simp only [Finset.sum_mul, mul_assoc]
      _ = ∑ k, (if i = k then (1 : ZMod 256) else 0) * (bv k : ZMod 256) := by
          refine Finset.sum_congr rfl fun k _ => ?_
          have h1 := hz i k
          rw [Matrix.mul_apply] at h1
          push_cast at h1
          rw [h1]
      _ = (bv i : ZMod 256) := by
          simp only [ite_mul, one_mul, zero_mul]
          rw [Finset.sum_ite_eq]
          simp
  rw [ZMod.intCast_eq_intCast_iff'] at hcast
  push_cast at hcast
  rw [Int.emod_eq_of_lt (hbv i).1
    (lt_of_le_of_lt (hbv i).2 (by norm_num))] at hcast
  rw [Int.emod_emod_of_dvd _ dvd_rfl] at hcast
  exact hcast

/-- C2: for every key matrix of dimension 2, 3 or 4 whose modular inverse
was computed successfully, and every block of matching length whose entries
lie in [0, 255], decrypting an encrypted block with the cached inverse
returns the original block. -/
theorem C2_block_roundtrip (rows invRows : List (List Int)) (b : List Int)
    (_hn : rows.length = 2 ∨ rows.length = 3 ∨ rows.length = 4)
    (hinv : matrix_inverse_mod_rows rows = Except.ok invRows)
    (hb : b.length = rows.length)
    (hbr : ∀ v ∈ b, 0 ≤ v ∧ v ≤ 255) :
    decrypt_block invRows (encrypt_block rows b) = b := by
  have hsq : isSquareL rows = true := by
    by_contra hq
    simp only [matrix_inverse_mod_rows, Bool.not_eq_true] at hinv hq
    rw [hq] at hinv
    simp at hinv
  rw [matrix_inverse_mod_rows, hsq] at hinv
  simp only [if_true] at hinv
  cases hmi : matrix_inverse_mod (toMat rows) 256 with
  | none => rw [hmi] at hinv; simp at hinv
  | some A =>
    rw [hmi] at hinv
    simp only [Except.ok.injEq] at hinv
    have hgcd : Nat.gcd (((toMat rows).det % 256).toNat) 256 = 1 := by
      by_contra hg
      have hnone : matrix_inverse_mod (toMat rows) 256 = none :=
        (matrix_inverse_mod_eq_none_iff (toMat rows)).mpr hg
      rw [hnone] at hmi
      exact Option.noConfusion hmi
    obtain ⟨A2, hA2, _, hz⟩ := matrix_inverse_mod_spec (toMat rows) hgcd
    rw [hA2] at hmi
    have hAA : A2 = A := by simpa using hmi
    subst hAA
    subst hinv
    have hrows : ∀ r ∈ rows, r.length = rows.length := isSquareL_rows hsq
    have henclen : (encrypt_block rows b).length = rows.length := by
      simp [encrypt_block]
    have hdeclen : (decrypt_block (ofMat A2) (encrypt_block rows b)).length
        = rows.length := by
      simp [decrypt_block, ofMat_length]
    apply List.ext_getElem (by rw [hdeclen, hb])
    intro i hi1 hi2
    have hiF : i < rows.length := by rw [hdeclen] at hi1; exact hi1
    have hilt : i < (ofMat A2).length := by rw [ofMat_length]; exact hiF
    set iF : Fin rows.length := ⟨i, hiF⟩ with hiFdef
    -- decrypt entry
    have hget1 : (decrypt_block (ofMat A2) (encrypt_block rows b))[i] =
        dotRow ((ofMat A2).getD i []) (encrypt_block rows b) % 256 := by
      simp only [decrypt_block, List.getElem_map]
      rw [← List.getD_eq_getElem (ofMat A2) ([] : List Int) hilt]
    -- encrypt entries
    have henc : ∀ j : Fin rows.length, (encrypt_block rows b).getD j 0 =
        (∑ k : Fin rows.length, toMat rows j k * b.getD k 0) % 256 := by
      intro j
      have hj : (j : Nat) < (encrypt_block rows b).length := by
        rw [henclen]; exact j.2
      have hjr : (j : Nat) < rows.length := j.2
      rw [List.getD_eq_getElem (encrypt_block rows b) (0 : Int) hj]
      simp only [encrypt_block, List.getElem_map]
      have hrl : (rows[(j : Nat)]).length = rows.length :=
        hrows _ (List.getElem_mem hjr)
      rw [dotRow_eq_sum rows.length _ b hrl hb]
      congr 1
      refine Finset.sum_congr rfl fun k _ => ?_
      congr 1
      show rows[(j : Nat)].getD k 0 = (rows.getD j []).getD k 0
      rw [List.getD_eq_getElem rows ([] : List Int) hjr]
    have hrowlen : ((ofMat A2).getD i []).length = rows.length :=
      ofMat_row_length A2 iF
    rw [hget1, dotRow_eq_sum rows.length _ _ hrowlen henclen]
    have hterm : ∀ j : Fin rows.length,
        ((ofMat A2).getD i []).getD j 0 * (encrypt_block rows b).getD j 0 =
        A2 iF j * ((∑ k : Fin rows.length, toMat rows j k * b.getD k 0) % 256) := by
      intro j
      rw [henc j]
      congr 1
      exact ofMat_getD A2 iF j
    rw [Finset.sum_congr rfl fun j _ => hterm j]
    have hbv : ∀ k : Fin rows.length, 0 ≤ b.getD k 0 ∧ b.getD k 0 ≤ 255 := by
      intro k
      have hk : (k : Nat) < b.length := by rw [hb]; exact k.2
      rw [List.getD_eq_getElem b (0 : Int) hk]
      exact hbr _ (List.getElem_mem hk)
    have := block_roundtrip_entry A2 (toMat rows) hz (fun k => b.getD k 0) hbv iF
    rw [this]
    exact List.getD_eq_getElem b (0 : Int) hi2

/-- C2 witness: the 2x2 key [[3,2],[5,7]] with its cached inverse
[[117,186],[209,233]] round-trips the block [10,20]. -/
theorem C2_block_roundtrip_witness :
    decrypt_block [[117, 186], [209, 233]]
      (encrypt_block [[3, 2], [5, 7]] [10, 20]) = [10, 20] :=
  C2_block_roundtrip [[3, 2], [5, 7]] [[117, 186], [209, 233]] [10, 20]
    (Or.inl rfl) matrix_inverse_mod_rows_key2 rfl (by decide)

/-- C3: for every square integer matrix with entries in [0, 255] whose
determinant is a unit modulo 256, matrix_inverse_mod returns a matrix with
entries in [0, 256) whose product with the input is the identity modulo
256, elementwise. -/
theorem C3_matrix_inverse_mod_correct {n : Nat} (M : Matrix (Fin n) (Fin n) Int)
    (_hrange : ∀ i j, 0 ≤ M i j ∧ M i j ≤ 255)
    (hdet : Nat.gcd ((M.det % 256).toNat) 256 = 1) :
    ∃ A, matrix_inverse_mod M 256 = some A ∧
      (∀ i j, 0 ≤ A i j ∧ A i j < 256) ∧
      (∀ i j, ((A * M) i j) % 256 = if i = j then (1 : Int) else 0) := by
  obtain ⟨A, hA, hbnd, hz⟩ := matrix_inverse_mod_spec M hdet
  refine ⟨A, hA, hbnd, fun i j => ?_⟩
  have h2 : (((A * M) i j : Int) : ZMod 256) =
      (((if i = j then (1 : Int) else 0) : Int) : ZMod 256) := by
    rw [hz i j]
    split <;> simp
  rw [ZMod.intCast_eq_intCast_iff'] at h2
  push_cast at h2
  rw [h2]
  split <;> norm_num

/-- C3 witness: the key [[3,2],[5,7]] (determinant 11, a unit mod 256)
satisfies the hypotheses and hence the conclusion of C3. -/
theorem C3_matrix_inverse_mod_correct_witness :
    (∀ i j : Fin 2, 0 ≤ Matrix.of ![![(3 : Int), 2], ![5, 7]] i j ∧
        Matrix.of ![![(3 : Int), 2], ![5, 7]] i j ≤ 255) ∧
    Nat.gcd (((Matrix.of ![![(3 : Int), 2], ![5, 7]]).det % 256).toNat) 256 = 1 ∧
    ∃ A, matrix_inverse_mod (Matrix.of ![![(3 : Int), 2], ![5, 7]]) 256 = some A ∧
      (∀ i j, 0 ≤ A i j ∧ A i j < 256) ∧
      (∀ i j, ((A * Matrix.of ![![(3 : Int), 2], ![5, 7]]) i j) % 256 =
        if i = j then (1 : Int) else 0) :=
  ⟨by decide, by decide,
    C3_matrix_inverse_mod_correct (Matrix.of ![![(3 : Int), 2], ![5, 7]])
      (by decide) (by decide)⟩

/-- C7: pad_data with block size at least 1 returns a list of length
len + (N - len % N) % N whose first len elements are the input unchanged
and whose remaining elements are all zero; it only appends at the end, and
the resulting length is a multiple of N. -/
theorem C7_pad_data_correct (bs : Nat) (s : List Int) (hbs : 1 ≤ bs) :
    (pad_data bs s).length = s.length + (bs - s.length % bs) % bs ∧
    (pad_data bs s).take s.length = s ∧
    (pad_data bs s).drop s.length =
      List.replicate ((bs - s.length % bs) % bs) 0 ∧
    bs ∣ (pad_data bs s).length := by
  have hbs0 : 0 < bs := hbs
  by_cases hr : s.length % bs = 0
  · simp only [pad_data, hr, ne_eq, not_true_eq_false, if_false]
    refine ⟨?_, ?_, ?_, ?_⟩
    · simp [Nat.mod_self]
    · exact List.take_length s
    · simp [Nat.mod_self, List.drop_length]
    · exact Nat.dvd_of_mod_eq_zero hr
  · have hrlt : s.length % bs < bs := Nat.mod_lt _ hbs0
    have hpadlen : (bs - s.length % bs) % bs = bs - s.length % bs :=
      Nat.mod_eq_of_lt (by omega)
    simp only [pad_data, ne_eq, hr, not_false_eq_true, if_true]
    refine ⟨?_, ?_, ?_, ?_⟩
    · rw [hpadlen, List.length_append, List.length_replicate]
    · exact List.take_left s _
    · rw [List.drop_left, hpadlen]
    · rw [List.length_append, List.length_replicate]
      refine ⟨s.length / bs + 1, ?_⟩
      have hdiv := Nat.mod_add_div s.length bs
      have hmul : bs * (s.length / bs + 1) = bs * (s.length / bs) + bs := by
        ring
      omega

/-- C7 witness: a channel of length 5 with block size 2 pads to length 6
with one trailing zero appended. -/
theorem C7_pad_data_correct_witness :
    1 ≤ 2 ∧
    ((pad_data 2 [10, 20, 30, 40, 50]).length =
      ([10, 20, 30, 40, 50] : List Int).length +
        (2 - ([10, 20, 30, 40, 50] : List Int).length % 2) % 2 ∧
    (pad_data 2 [10, 20, 30, 40, 50]).take
        ([10, 20, 30, 40, 50] : List Int).length = [10, 20, 30, 40, 50] ∧
    (pad_data 2 [10, 20, 30, 40, 50]).drop
        ([10, 20, 30, 40, 50] : List Int).length =
      List.replicate ((2 - ([10, 20, 30, 40, 50] : List Int).length % 2) % 2) 0 ∧
    2 ∣ (pad_data 2 [10, 20, 30, 40, 50]).length) :=
  ⟨by decide, C7_pad_data_correct 2 [10, 20, 30, 40, 50] (by decide)⟩

/-- C8: set_key_matrix validates the key at the moment it is set: a
non-square matrix fails with the non-square error, a square matrix whose
determinant is not a unit modulo 256 fails with the singular error, and
otherwise the call succeeds and caches both the matrix and its modular
inverse. -/
theorem C8_set_key_validation (st : CipherState) (rows : List (List Int)) :
    (isSquareL rows = false →
      (set_key_matrix st rows).1 = Except.error KeyErr.nonSquare) ∧
    (isSquareL rows = true →
      Nat.gcd (((toMat rows).det % 256).toNat) 256 ≠ 1 →
      (set_key_matrix st rows).1 = Except.error KeyErr.singular) ∧
    (isSquareL rows = true →
      Nat.gcd (((toMat rows).det % 256).toNat) 256 = 1 →
      ∃ inv, matrix_inverse_mod_rows rows = Except.ok inv ∧
        (set_key_matrix st rows).1 = Except.ok () ∧
        (set_key_matrix st rows).2.key_matrix = some rows ∧
        (set_key_matrix st rows).2.inverse_key_matrix = some inv) := by
  refine ⟨?_, ?_, ?_⟩
  · intro hsq
    simp [set_key_matrix, matrix_inverse_mod_rows, hsq]
  · intro hsq hg
    have hnone := (matrix_inverse_mod_eq_none_iff (toMat rows)).mpr hg
    simp [set_key_matrix, matrix_inverse_mod_rows, hsq, hnone]
  · intro hsq hg
    obtain ⟨A, hA, -, -⟩ := matrix_inverse_mod_spec (toMat rows) hg
    refine ⟨ofMat A, ?_, ?_, ?_, ?_⟩ <;>
      simp [set_key_matrix, matrix_inverse_mod_rows, hsq, hA]

/-- C8 witness: the spec example [[2,4],[1,2]] (determinant 0) is rejected
with the singular-matrix error at set-key time. -/
theorem C8_set_key_validation_witness :
    (set_key_matrix ⟨2, none, none⟩ [[2, 4], [1, 2]]).1 =
      Except.error KeyErr.singular :=
  (C8_set_key_validation ⟨2, none, none⟩ [[2, 4], [1, 2]]).2.1 (by decide)
    (by decide)

/-- C4: the code violates set-key atomicity.  Starting from an instance
holding the valid key [[3,2],[5,7]] and its cached inverse, a failing
set_key_matrix call with the singular matrix [[2,4],[1,2]] leaves the
key-matrix field overwritten with the rejected matrix while the cached
inverse is still the stale inverse of the previous key, so the state is
not unchanged. -/
theorem C4_set_key_not_atomic :
    (set_key_matrix (set_key_matrix ⟨2, none, none⟩ [[3, 2], [5, 7]]).2
        [[2, 4], [1, 2]]).1 = Except.error KeyErr.singular ∧
    (set_key_matrix (set_key_matrix ⟨2, none, none⟩ [[3, 2], [5, 7]]).2
        [[2, 4], [1, 2]]).2.key_matrix = some [[2, 4], [1, 2]] ∧
    (set_key_matrix (set_key_matrix ⟨2, none, none⟩ [[3, 2], [5, 7]]).2
        [[2, 4], [1, 2]]).2.inverse_key_matrix =
      some [[117, 186], [209, 233]] ∧
    (set_key_matrix (set_key_matrix ⟨2, none, none⟩ [[3, 2], [5, 7]]).2
        [[2, 4], [1, 2]]).2 ≠
      (set_key_matrix ⟨2, none, none⟩ [[3, 2], [5, 7]]).2 := by
  rw [set_key_matrix_key2]
  simp only [set_key_matrix, matrix_inverse_mod_rows_sing2]
  exact ⟨trivial, trivial, trivial, by decide⟩

/-- C9: saving a valid key with block size N and loading the resulting
record into a fresh cipher instance succeeds and restores bit-identical
key rows and the same block size. -/
theorem C9_key_persistence_roundtrip (st : CipherState)
    (K inv : List (List Int)) (N : Nat)
    (hk : st.key_matrix = some K) (hbs : st.block_size = N)
    (hvalid : matrix_inverse_mod_rows K = Except.ok inv) :
    save_key st = some { key_matrix := K, block_size := some N } ∧
    (load_key ⟨2, none, none⟩ { key_matrix := K, block_size := some N }).1
      = true ∧
    (load_key ⟨2, none, none⟩
      { key_matrix := K, block_size := some N }).2.key_matrix = some K ∧
    (load_key ⟨2, none, none⟩
      { key_matrix := K, block_size := some N }).2.block_size = N := by
  refine ⟨?_, ?_, ?_, ?_⟩ <;>
    simp [save_key, load_key, set_key_matrix, hk, hbs, hvalid]

/-- C9 witness: the key [[3,2],[5,7]] with block size 2 survives a save
and load round trip bit-identically. -/
theorem C9_key_persistence_roundtrip_witness :
    save_key ⟨2, some [[3, 2], [5, 7]], some [[117, 186], [209, 233]]⟩ =
      some { key_matrix := [[3, 2], [5, 7]], block_size := some 2 } ∧
    (load_key ⟨2, none, none⟩
      { key_matrix := [[3, 2], [5, 7]], block_size := some 2 }).1 = true ∧
    (load_key ⟨2, none, none⟩
      { key_matrix := [[3, 2], [5, 7]],
        block_size := some 2 }).2.key_matrix = some [[3, 2], [5, 7]] ∧
    (load_key ⟨2, none, none⟩
      { key_matrix := [[3, 2], [5, 7]],
        block_size := some 2 }).2.block_size = 2 :=
  C9_key_persistence_roundtrip
    ⟨2, some [[3, 2], [5, 7]], some [[117, 186], [209, 233]]⟩
    [[3, 2], [5, 7]] [[117, 186], [209, 233]] 2 rfl rfl
    matrix_inverse_mod_rows_key2

/-- C10: loading a key record that has no block-size field succeeds for a
valid key matrix and sets the block size to the default 2, regardless of
the previous state and of the matrix dimension. -/
theorem C10_load_key_default_block_size (st : CipherState) (kf : KeyFile)
    (inv : List (List Int)) (hbs : kf.block_size = none)
    (hvalid : matrix_inverse_mod_rows kf.key_matrix = Except.ok inv) :
    (load_key st kf).1 = true ∧ (load_key st kf).2.block_size = 2 := by
  constructor <;> simp [load_key, set_key_matrix, hbs, hvalid]

/-- C10 witness: a record holding a valid 3x3 key and no block-size field
loads successfully into an instance with block size 7, and the resulting
block size is the default 2 (neither the old 7 nor the dimension 3). -/
theorem C10_load_key_default_block_size_witness :
    (load_key ⟨7, none, none⟩
      ⟨[[1, 0, 0], [0, 1, 0], [0, 0, 1]], none⟩).1 = true ∧
    (load_key ⟨7, none, none⟩
      ⟨[[1, 0, 0], [0, 1, 0], [0, 0, 1]], none⟩).2.block_size = 2 :=
  C10_load_key_default_block_size ⟨7, none, none⟩
    ⟨[[1, 0, 0], [0, 1, 0], [0, 0, 1]], none⟩ [[1, 0, 0], [0, 1, 0], [0, 0, 1]]
    rfl matrix_inverse_mod_rows_id3

/-- C1: the encrypt-then-decrypt image round trip fails when a flattened
length is not a multiple of the block size.  For the 1x5 grayscale image
[10,20,30,40,50] under the key [[3,2],[5,7]] with block size 2, encryption
pads to 6 values, encrypts 3 blocks and truncates the ciphertext back to 5
values, discarding one ciphertext value; decryption then re-pads the
truncated ciphertext with a zero, so the final block decrypts wrongly and
the round trip returns [10,20,30,40,142] instead of the original image. -/
theorem C1_image_roundtrip_failure :
    (Except.bind
      (encrypt_image (set_key_matrix ⟨2, none, none⟩ [[3, 2], [5, 7]]).2
        (Img.gray [1, 5] "L" [10, 20, 30, 40, 50]))
      fun p =>
        decrypt_image (set_key_matrix ⟨2, none, none⟩ [[3, 2], [5, 7]]).2
          p.1 (some p.2)) =
      Except.ok (Img.gray [1, 5] "L" [10, 20, 30, 40, 142]) ∧
    Img.gray [1, 5] "L" ([10, 20, 30, 40, 142] : List Int) ≠
      Img.gray [1, 5] "L" [10, 20, 30, 40, 50] := by
  rw [set_key_matrix_key2]
  exact ⟨rfl, by decide⟩

/-- C6 counterexample: when no metadata record is available, decrypt_image
does not fail with a missing-metadata error; it derives the shape and mode
from the ciphertext image itself and proceeds to a successful result. -/
theorem C6_no_metadata_proceeds :
    decrypt_image ⟨2, some [[3, 2], [5, 7]], some [[117, 186], [209, 233]]⟩
      (Img.gray [1, 4] "L" [1, 2, 3, 4]) none =
      Except.ok (Img.gray [1, 4] "L" [233, 163, 71, 23]) := rfl

/-- C6 (amended): decrypt_image takes the reconstruction shape and mode
from the metadata record when one is available; when none is available it
falls back to the shape and mode of the ciphertext image itself and
proceeds with them (there is no missing-metadata error path); and every
successful reconstruction carries exactly the recorded shape and mode. -/
theorem C6_decrypt_uses_metadata (st : CipherState) (img : Img) :
    (decrypt_image st img none = decrypt_image st img
      (some { original_shape := img.shape, image_mode := img.mode,
              block_size := st.block_size, key_matrix := [] })) ∧
    (∀ md out, decrypt_image st img (some md) = Except.ok out →
      out.shape = md.original_shape ∧ out.mode = md.image_mode) := by
  constructor
  · rfl
  · intro md out hok
    simp only [decrypt_image] at hok
    split at hok
    · exact absurd hok (by simp)
    · by_cases h3 : md.original_shape.length = 3
      · rw [if_pos h3] at hok
        cases img with
        | gray sh mo d => simp at hok
        | color hh ww mo channels =>
          simp only at hok
          split at hok
          · split at hok
            · rw [Except.ok.injEq] at hok
              subst hok
              obtain ⟨a, b, c2, hsh⟩ := List.length_eq_three.mp h3
              constructor
              · show _ = md.original_shape
                rw [hsh]
                simp only [Img.shape, List.length_map, List.length_take, hsh]
                have hc : ([a, b, c2] : List Nat).getD 2 0 ≤ channels.length := by
                  rw [← hsh]; assumption
                simp only [List.getD_cons_succ, List.getD_cons_zero] at hc ⊢
                rw [Nat.min_eq_left hc]
              · rfl
            · exact absurd hok (by simp)
          · exact absurd hok (by simp)
      · rw [if_neg h3] at hok
        split at hok
        · rw [Except.ok.injEq] at hok
          subst hok
          exact ⟨rfl, rfl⟩
        · exact absurd hok (by simp)

/-- C6 witness: a successful decryption with an explicit metadata record
has the shape and mode recorded in that metadata. -/
theorem C6_decrypt_uses_metadata_witness :
    (Img.gray [1, 4] "L" [233, 163, 71, 23]).shape = [1, 4] ∧
    (Img.gray [1, 4] "L" [233, 163, 71, 23]).mode = "L" :=
  (C6_decrypt_uses_metadata
    ⟨2, some [[3, 2], [5, 7]], some [[117, 186], [209, 233]]⟩
    (Img.gray [1, 4] "L" [1, 2, 3, 4])).2
    { original_shape := [1, 4], image_mode := "L", block_size := 2,
      key_matrix := [] }
    (Img.gray [1, 4] "L" [233, 163, 71, 23]) rfl

end HillCipher
